import Mathlib

/-!
Verification of the data-loading / dispatch layer of the `vscode-data-preview`
extension (`src/data.preview.ts` and `src/data.providers/avro.data.provider.ts`).

JavaScript values that flow through the preview pipeline are modelled by the
inductive type `JVal`.  A JavaScript object is modelled as its entry list in
enumeration order (`List (String × JVal)`); file contents written as JSON are
modelled at the JSON-value level (a stored `JVal` `v` stands for the bytes
`JSON.stringify(v, null, 2)`, which is injective on values), so byte-for-byte
preservation of a file corresponds to preservation of the stored value.
-/

/-- A JavaScript/JSON value: scalar (string, number, boolean, null), object or
array.  `typeof v === 'object' && v !== null` holds exactly for `obj` and
`arr`. -/
inductive JVal where
| str : String → JVal
| num : Int → JVal
| bool : Bool → JVal
| null : JVal
| obj : List (String × JVal) → JVal
| arr : List JVal → JVal

/-- The JavaScript test `typeof v === 'object' && v !== null` used by
`flattenObject` to decide whether to recurse. -/
def isNested : JVal → Bool
| JVal.obj _ => true
| JVal.arr _ => true
| _ => false

/-- First-match association lookup: JavaScript property read `o[k]` on an
object whose entry list is `l` (entry lists of real JS objects have distinct
keys, so first match is the match). -/
def getKey {α : Type} : List (String × α) → String → Option α
| [], _ => none
| p :: rest, k => if p.1 = k then some p.2 else getKey rest k

/-- Whether an entry list has an entry with key `k`. -/
def hasKey {α : Type} : List (String × α) → String → Bool
| [], _ => false
| p :: rest, k => if p.1 = k then true else hasKey rest k

/-- Replace the value of every entry whose key is `k` by `v`, keeping entry
positions (the in-place update part of a JS property write). -/
def overwriteKey {α : Type} : List (String × α) → String → α → List (String × α)
| [], _, _ => []
| p :: rest, k, v => (if p.1 = k then (k, v) else p) :: overwriteKey rest k v

/-- JavaScript property write `o[k] = v`: overwrite in place when the key is
present, otherwise append a fresh entry. -/
def setKey {α : Type} (l : List (String × α)) (k : String) (v : α) : List (String × α) :=
  if hasKey l k then overwriteKey l k v else l ++ [(k, v)]

/-- `Object.assign(target, src)`: assign every entry of `src` onto `target`
in order (later entries win). -/
def jsAssign {α : Type} : List (String × α) → List (String × α) → List (String × α)
| target, [] => target
| target, p :: rest => jsAssign (setKey target p.1 p.2) rest

/-- Left-biased choice on `Option`, used to state lookup lemmas. -/
def oor {α : Type} : Option α → Option α → Option α
| some v, _ => some v
| none, b => b

/-- Last-match association lookup: the value of the last entry with key `k`,
if any.  This is what a sequence of JS property writes leaves behind. -/
def lastAssoc {α : Type} : List (String × α) → String → Option α
| [], _ => none
| p :: rest, k => oor (lastAssoc rest k) (if p.1 = k then some p.2 else none)

mutual
/-- `DataPreview.flattenObject` from `src/data.preview.ts` (lines 544–554):
for every key of `obj`, if the value is a non-null object (which in JS
includes arrays), recursively flatten it and `Object.assign` the result onto
the accumulator; otherwise write the field as-is.  The result is the entry
list of the returned flat object. -/
def flattenObject : JVal → List (String × JVal)
| JVal.obj l => flattenFields l []
| JVal.arr l => flattenElems 0 l []
| _ => []
termination_by structural v => v

/-- The `Object.keys(obj).forEach` loop of `flattenObject` over an object's
entries, with `acc` the entry list of `flatObject` built so far. -/
def flattenFields : List (String × JVal) → List (String × JVal) → List (String × JVal)
| [], acc => acc
| (k, v) :: rest, acc =>
    flattenFields rest (if isNested v then jsAssign acc (flattenObject v) else setKey acc k v)
termination_by structural l acc => l

/-- The same loop over an array: `Object.keys` of a dense array enumerates the
element indices "0", "1", … in order. -/
def flattenElems : Nat → List JVal → List (String × JVal) → List (String × JVal)
| _, [], acc => acc
| i, v :: rest, acc =>
    flattenElems (i + 1) rest
      (if isNested v then jsAssign acc (flattenObject v) else setKey acc (toString i) v)
termination_by structural i l acc => l
end

mutual
/-- Spec-side description (§4.2/§8 of the spec, not the source): the scalar
leaf fields of a value, every nesting level, in depth-first field order.  The
spec's flatten contract says the flat record is exactly these leaves with
later (deeper/right-er) occurrences of a name overwriting earlier ones. -/
def leafSpecOf : JVal → List (String × JVal)
| JVal.obj l => leafSpecFields l
| JVal.arr l => leafSpecElems 0 l
| _ => []
termination_by structural v => v

/-- Spec-side leaf collection over an object's fields, depth-first. -/
def leafSpecFields : List (String × JVal) → List (String × JVal)
| [] => []
| (k, v) :: rest => (if isNested v then leafSpecOf v else [(k, v)]) ++ leafSpecFields rest
termination_by structural l => l

/-- Spec-side leaf collection over an array's elements, keys are the
stringified indices. -/
def leafSpecElems : Nat → List JVal → List (String × JVal)
| _, [] => []
| i, v :: rest => (if isNested v then leafSpecOf v else [(toString i, v)]) ++ leafSpecElems (i + 1) rest
termination_by structural i l => l
end

/-- The keys of an entry list, in order. -/
def keysOf {α : Type} (l : List (String × α)) : List String :=
  l.map Prod.fst

theorem oor_none_right {α : Type} (a : Option α) : oor a none = a := by
  cases a <;> rfl

theorem oor_assoc {α : Type} (a b c : Option α) : oor (oor a b) c = oor a (oor b c) := by
  cases a <;> cases b <;> rfl

theorem getKey_append {α : Type} (a b : List (String × α)) (k : String) :
    getKey (a ++ b) k = oor (getKey a k) (getKey b k) := by
  induction a with
  | nil => rfl
  | cons p rest ih =>
      by_cases h : p.1 = k <;> simp [getKey, h, ih, oor]

theorem lastAssoc_append {α : Type} (a b : List (String × α)) (k : String) :
    lastAssoc (a ++ b) k = oor (lastAssoc b k) (lastAssoc a k) := by
  induction a with
  | nil => simp [lastAssoc, oor_none_right]
  | cons p rest ih => simp [lastAssoc, ih, oor_assoc]

theorem getKey_eq_none_of_hasKey {α : Type} (l : List (String × α)) (k : String)
    (h : hasKey l k = false) : getKey l k = none := by
  induction l with
  | nil => rfl
  | cons p rest ih =>
      by_cases hp : p.1 = k
      · simp [hasKey, hp] at h
      · simp [hasKey, hp] at h
        simp [getKey, hp, ih h]

theorem lastAssoc_eq_none_of_hasKey {α : Type} (l : List (String × α)) (k : String)
    (h : hasKey l k = false) : lastAssoc l k = none := by
  induction l with
  | nil => rfl
  | cons p rest ih =>
      by_cases hp : p.1 = k
      · simp [hasKey, hp] at h
      · simp [hasKey, hp] at h
        simp [lastAssoc, hp, ih h, oor_none_right]

theorem getKey_overwriteKey_self {α : Type} (l : List (String × α)) (k : String) (v : α) :
    getKey (overwriteKey l k v) k = if hasKey l k then some v else none := by
  induction l with
  | nil => rfl
  | cons p rest ih =>
      by_cases hp : p.1 = k
      · simp [overwriteKey, hasKey, hp, getKey]
      · simp [overwriteKey, hasKey, hp, getKey, ih]

theorem getKey_overwriteKey_ne {α : Type} (l : List (String × α)) (k k' : String) (v : α)
    (h : k' ≠ k) : getKey (overwriteKey l k v) k' = getKey l k' := by
  induction l with
  | nil => rfl
  | cons p rest ih =>
      by_cases hp : p.1 = k
      · have hkk : k ≠ k' := fun hk => h hk.symm
        simp [overwriteKey, hp, getKey, hkk, ih, h]
      · by_cases hp' : p.1 = k' <;> simp [overwriteKey, hp, getKey, hp', ih, h]

theorem getKey_setKey {α : Type} (l : List (String × α)) (k k' : String) (v : α) :
    getKey (setKey l k v) k' = if k' = k then some v else getKey l k' := by
  by_cases hk : k' = k
  · subst hk
    by_cases h : hasKey l k'
    · simp [setKey, h, getKey_overwriteKey_self]
    · simp only [Bool.not_eq_true] at h
      simp [setKey, h, getKey_append, getKey_eq_none_of_hasKey l k' h, getKey, oor]
  · by_cases h : hasKey l k
    · simp [setKey, h, getKey_overwriteKey_ne l k k' v hk, hk]
    · simp only [Bool.not_eq_true] at h
      have hkk : k ≠ k' := fun hh => hk hh.symm
      simp [setKey, h, getKey_append, getKey, hk, hkk, oor_none_right]

theorem getKey_jsAssign {α : Type} (s t : List (String × α)) (k : String) :
    getKey (jsAssign t s) k = oor (lastAssoc s k) (getKey t k) := by
  induction s generalizing t with
  | nil => simp [jsAssign, lastAssoc, oor]
  | cons p rest ih =>
      simp only [jsAssign, lastAssoc, ih, getKey_setKey, oor_assoc]
      by_cases hp : p.1 = k
      · subst hp
        simp [oor]
      · have : k ≠ p.1 := fun hk => hp hk.symm
        simp [hp, this, oor]

theorem keysOf_overwriteKey {α : Type} (l : List (String × α)) (k : String) (v : α) :
    keysOf (overwriteKey l k v) = keysOf l := by
  induction l with
  | nil => rfl
  | cons p rest ih =>
      by_cases hp : p.1 = k <;> simp [overwriteKey, keysOf, hp, ih] <;> simp [keysOf] at ih <;>
        simp [ih, hp]

theorem not_mem_keys_of_hasKey {α : Type} (l : List (String × α)) (k : String)
    (h : hasKey l k = false) : k ∉ keysOf l := by
  induction l with
  | nil => simp [keysOf]
  | cons p rest ih =>
      by_cases hp : p.1 = k
      · simp [hasKey, hp] at h
      · simp [hasKey, hp] at h
        simp [keysOf] at ih
        simp [keysOf, ih h]
        exact fun hk => hp hk.symm

theorem nodup_keys_setKey {α : Type} (l : List (String × α)) (k : String) (v : α)
    (h : (keysOf l).Nodup) : (keysOf (setKey l k v)).Nodup := by
  by_cases hk : hasKey l k
  · simp [setKey, hk, keysOf_overwriteKey, h]
  · simp only [Bool.not_eq_true] at hk
    have hnm := not_mem_keys_of_hasKey l k hk
    simp [setKey, hk, keysOf] at h hnm ⊢
    exact List.Nodup.append h (by simp) (by simpa using hnm)

theorem nodup_keys_jsAssign {α : Type} (s t : List (String × α))
    (h : (keysOf t).Nodup) : (keysOf (jsAssign t s)).Nodup := by
  induction s generalizing t with
  | nil => simpa [jsAssign]
  | cons p rest ih => exact ih _ (nodup_keys_setKey t p.1 p.2 h)

theorem mem_keys_of_hasKey {α : Type} (l : List (String × α)) (k : String)
    (h : hasKey l k = true) : k ∈ keysOf l := by
  induction l with
  | nil => simp [hasKey] at h
  | cons p rest ih =>
      by_cases hp : p.1 = k
      · simp [keysOf, hp]
      · simp [hasKey, hp] at h
        simp [keysOf] at ih ⊢
        exact Or.inr (by simpa [keysOf] using ih h)

theorem lastAssoc_eq_getKey_of_nodup {α : Type} (l : List (String × α)) (k : String)
    (h : (keysOf l).Nodup) : lastAssoc l k = getKey l k := by
  induction l with
  | nil => rfl
  | cons p rest ih =>
      simp only [keysOf, List.map_cons, List.nodup_cons] at h
      by_cases hp : p.1 = k
      · subst hp
        have hfalse : hasKey rest p.1 = false := by
          by_contra hh
          simp only [Bool.not_eq_false] at hh
          exact h.1 (by simpa [keysOf] using mem_keys_of_hasKey rest p.1 hh)
        simp [lastAssoc, getKey, lastAssoc_eq_none_of_hasKey rest p.1 hfalse, oor]
      · simp [lastAssoc, getKey, hp, ih h.2, oor_none_right]

theorem nodup_keys_flattenFields (l acc : List (String × JVal))
    (h : (keysOf acc).Nodup) : (keysOf (flattenFields l acc)).Nodup := by
  induction l generalizing acc with
  | nil => simpa [flattenFields]
  | cons p rest ih =>
      obtain ⟨k, v⟩ := p
      by_cases hv : isNested v <;>
        simp only [flattenFields, hv, if_true, if_false, Bool.false_eq_true] <;>
        [exact ih _ (nodup_keys_jsAssign _ _ h); exact ih _ (nodup_keys_setKey _ _ _ h)]

theorem nodup_keys_flattenElems (i : Nat) (l : List JVal) (acc : List (String × JVal))
    (h : (keysOf acc).Nodup) : (keysOf (flattenElems i l acc)).Nodup := by
  induction l generalizing i acc with
  | nil => simpa [flattenElems]
  | cons v rest ih =>
      by_cases hv : isNested v <;>
        simp only [flattenElems, hv, if_true, if_false, Bool.false_eq_true] <;>
        [exact ih _ _ (nodup_keys_jsAssign _ _ h); exact ih _ _ (nodup_keys_setKey _ _ _ h)]

theorem nodup_keys_flattenObject (v : JVal) : (keysOf (flattenObject v)).Nodup := by
  cases v <;>
    simp only [flattenObject] <;>
    first
      | exact nodup_keys_flattenFields _ _ (by simp [keysOf])
      | exact nodup_keys_flattenElems _ _ _ (by simp [keysOf])
      | simp [keysOf]

theorem mem_values_overwriteKey {α : Type} (P : α → Prop) (l : List (String × α)) (k : String)
    (v : α) (hl : ∀ p ∈ l, P p.2) (hv : P v) : ∀ p ∈ overwriteKey l k v, P p.2 := by
  induction l with
  | nil => simp [overwriteKey]
  | cons q rest ih =>
      intro p hp
      by_cases hq : q.1 = k <;> simp only [overwriteKey, hq, if_true, if_false] at hp <;>
        rcases List.mem_cons.mp hp with h | h
      · exact h ▸ hv
      · exact ih (fun r hr => hl r (List.mem_cons_of_mem q hr)) p h
      · exact h ▸ hl q (List.mem_cons_self q rest)
      · exact ih (fun r hr => hl r (List.mem_cons_of_mem q hr)) p h

theorem mem_values_setKey {α : Type} (P : α → Prop) (l : List (String × α)) (k : String)
    (v : α) (hl : ∀ p ∈ l, P p.2) (hv : P v) : ∀ p ∈ setKey l k v, P p.2 := by
  intro p hp
  by_cases h : hasKey l k
  · simp only [setKey, h, if_true] at hp
    exact mem_values_overwriteKey P l k v hl hv p hp
  · simp only [Bool.not_eq_true] at h
    simp only [setKey, h, Bool.false_eq_true, if_false, List.mem_append] at hp
    rcases hp with hp | hp
    · exact hl p hp
    · simp at hp
      rw [hp]
      exact hv

theorem mem_values_jsAssign {α : Type} (P : α → Prop) (s t : List (String × α))
    (ht : ∀ p ∈ t, P p.2) (hs : ∀ p ∈ s, P p.2) : ∀ p ∈ jsAssign t s, P p.2 := by
  induction s generalizing t with
  | nil =>
      simp only [jsAssign]
      exact ht
  | cons q rest ih =>
      simp only [jsAssign]
      refine ih _ ?_ (fun r hr => hs r (List.mem_cons_of_mem q hr))
      exact mem_values_setKey P t q.1 q.2 ht (hs q (List.mem_cons_self q rest))

mutual
/-- Every value stored in a flattened object is scalar (non-nested): nested
objects and arrays are always dissolved, never copied as single fields. -/
theorem scalar_values_flattenObject (v : JVal) :
    ∀ p ∈ flattenObject v, isNested p.2 = false := by
  match v with
  | JVal.obj l =>
      simp only [flattenObject]
      exact scalar_values_flattenFields l [] (by simp)
  | JVal.arr l =>
      simp only [flattenObject]
      exact scalar_values_flattenElems 0 l [] (by simp)
  | JVal.str s => simp [flattenObject]
  | JVal.num n => simp [flattenObject]
  | JVal.bool b => simp [flattenObject]
  | JVal.null => simp [flattenObject]

theorem scalar_values_flattenFields (l acc : List (String × JVal))
    (h : ∀ p ∈ acc, isNested p.2 = false) :
    ∀ p ∈ flattenFields l acc, isNested p.2 = false := by
  match l with
  | [] =>
      simp only [flattenFields]
      exact h
  | (k, v) :: rest =>
      by_cases hv : isNested v
      · simp only [flattenFields, hv, if_true]
        refine scalar_values_flattenFields rest _ ?_
        exact mem_values_jsAssign (fun w => isNested w = false) _ _ h
          (scalar_values_flattenObject v)
      · simp only [flattenFields, hv, Bool.false_eq_true, if_false]
        refine scalar_values_flattenFields rest _ ?_
        exact mem_values_setKey (fun w => isNested w = false) _ _ _ h (by simpa using hv)

theorem scalar_values_flattenElems (i : Nat) (l : List JVal) (acc : List (String × JVal))
    (h : ∀ p ∈ acc, isNested p.2 = false) :
    ∀ p ∈ flattenElems i l acc, isNested p.2 = false := by
  match l with
  | [] =>
      simp only [flattenElems]
      exact h
  | v :: rest =>
      by_cases hv : isNested v
      · simp only [flattenElems, hv, if_true]
        refine scalar_values_flattenElems (i + 1) rest _ ?_
        exact mem_values_jsAssign (fun w => isNested w = false) _ _ h
          (scalar_values_flattenObject v)
      · simp only [flattenElems, hv, Bool.false_eq_true, if_false]
        refine scalar_values_flattenElems (i + 1) rest _ ?_
        exact mem_values_setKey (fun w => isNested w = false) _ _ _ h (by simpa using hv)
end

mutual
/-- Characterization of `flattenObject`: looking up any key in the flattened
object returns the value of the last scalar leaf with that name in the
depth-first leaf enumeration (last-merge-wins). -/
theorem getKey_flattenObject (v : JVal) (k : String) :
    getKey (flattenObject v) k = lastAssoc (leafSpecOf v) k := by
  match v with
  | JVal.obj l =>
      simp only [flattenObject, leafSpecOf]
      rw [getKey_flattenFields l [] k]
      simp [getKey, oor_none_right]
  | JVal.arr l =>
      simp only [flattenObject, leafSpecOf]
      rw [getKey_flattenElems 0 l [] k]
      simp [getKey, oor_none_right]
  | JVal.str s => simp [flattenObject, leafSpecOf, getKey, lastAssoc]
  | JVal.num n => simp [flattenObject, leafSpecOf, getKey, lastAssoc]
  | JVal.bool b => simp [flattenObject, leafSpecOf, getKey, lastAssoc]
  | JVal.null => simp [flattenObject, leafSpecOf, getKey, lastAssoc]

theorem getKey_flattenFields (l acc : List (String × JVal)) (k : String) :
    getKey (flattenFields l acc) k
      = oor (lastAssoc (leafSpecFields l) k) (getKey acc k) := by
  match l with
  | [] => simp [flattenFields, leafSpecFields, lastAssoc, oor]
  | (k0, v) :: rest =>
      by_cases hv : isNested v
      · simp only [flattenFields, leafSpecFields, hv, if_true]
        rw [getKey_flattenFields rest _ k, getKey_jsAssign,
          lastAssoc_eq_getKey_of_nodup _ k (nodup_keys_flattenObject v),
          getKey_flattenObject v k, lastAssoc_append, oor_assoc]
      · simp only [flattenFields, leafSpecFields, hv, Bool.false_eq_true, if_false]
        rw [getKey_flattenFields rest _ k, lastAssoc_append, oor_assoc]
        congr 1
        rw [getKey_setKey]
        by_cases hk : k = k0
        · simp [lastAssoc, hk, oor]
        · have hk0 : ¬k0 = k := fun h => hk h.symm
          simp [lastAssoc, hk, hk0, oor]

theorem getKey_flattenElems (i : Nat) (l : List JVal) (acc : List (String × JVal)) (k : String) :
    getKey (flattenElems i l acc) k
      = oor (lastAssoc (leafSpecElems i l) k) (getKey acc k) := by
  match l with
  | [] => simp [flattenElems, leafSpecElems, lastAssoc, oor]
  | v :: rest =>
      by_cases hv : isNested v
      · simp only [flattenElems, leafSpecElems, hv, if_true]
        rw [getKey_flattenElems (i + 1) rest _ k, getKey_jsAssign,
          lastAssoc_eq_getKey_of_nodup _ k (nodup_keys_flattenObject v),
          getKey_flattenObject v k, lastAssoc_append, oor_assoc]
      · simp only [flattenElems, leafSpecElems, hv, Bool.false_eq_true, if_false]
        rw [getKey_flattenElems (i + 1) rest _ k, lastAssoc_append, oor_assoc]
        congr 1
        rw [getKey_setKey]
        by_cases hk : k = toString i
        · simp [lastAssoc, hk, oor]
        · have hk0 : ¬toString i = k := fun h => hk h.symm
          simp [lastAssoc, hk, hk0, oor]
end

mutual
/-- Whether a value is free of arrays at every depth: the spec's Record data
model (§3) admits only scalars and nested Records as field values. -/
def arrayFree : JVal → Bool
| JVal.obj l => arrayFreeFields l
| JVal.arr _ => false
| _ => true
termination_by structural v => v

/-- `arrayFree` over an object's fields. -/
def arrayFreeFields : List (String × JVal) → Bool
| [] => true
| p :: rest => arrayFree p.2 && arrayFreeFields rest
termination_by structural l => l
end

theorem oor_eq_none_iff {α : Type} (a b : Option α) : oor a b = none ↔ a = none ∧ b = none := by
  cases a <;> simp [oor]

theorem lastAssoc_leafSpecFields_ne_none (l : List (String × JVal)) (k : String) (k' : String)
    (es : List JVal) (hmem : (k, JVal.arr es) ∈ l)
    (hne : lastAssoc (leafSpecOf (JVal.arr es)) k' ≠ none) :
    lastAssoc (leafSpecFields l) k' ≠ none := by
  induction l with
  | nil => simp at hmem
  | cons p rest ih =>
      obtain ⟨k0, v⟩ := p
      rcases List.mem_cons.mp hmem with h | h
      · obtain ⟨h1, h2⟩ := Prod.mk.injEq .. ▸ h
        subst h2
        simp only [leafSpecFields, isNested, if_true, lastAssoc_append, ne_eq, oor_eq_none_iff,
          not_and]
        intro _
        exact hne
      · simp only [leafSpecFields, lastAssoc_append, ne_eq, oor_eq_none_iff, not_and]
        intro hrest
        exact absurd hrest (ih h)

theorem lastAssoc_leafSpecElems_ne_none (es : List JVal) (j i : Nat)
    (hs : ∀ e ∈ es, isNested e = false) (hi : i < es.length) :
    lastAssoc (leafSpecElems j es) (toString (j + i)) ≠ none := by
  induction es generalizing j i with
  | nil => simp at hi
  | cons e rest ih =>
      have he : isNested e = false := hs e (List.mem_cons_self e rest)
      simp only [leafSpecElems, he, Bool.false_eq_true, if_false, lastAssoc_append, ne_eq,
        oor_eq_none_iff, not_and]
      cases i with
      | zero =>
          intro _
          simp [lastAssoc, oor]
      | succ n =>
          intro hrest
          have hrw : j + (n + 1) = j + 1 + n := by omega
          rw [hrw] at hrest
          have hn : n < rest.length := by
            simp only [List.length_cons] at hi
            omega
          exact absurd hrest (ih (j + 1) n (fun x hx => hs x (List.mem_cons_of_mem e hx)) hn)

/-- C1: for every Record containing nested Records (and, per the spec's data
model, no arrays), `flattenObject` produces a flat record whose lookup at any
name is exactly the last scalar leaf field with that name in the depth-first
enumeration of all nesting levels (last-merge-wins; scalar fields are their
own leaves, so non-Record fields are copied as-is), and every resulting value
is scalar.  `flattenObject` is a pure function of its input, so the result
depends only on the input. -/
theorem flattenObject_union_of_leaves (l : List (String × JVal))
    (hnest : l.any (fun p => isNested p.2) = true)
    (hrec : arrayFree (JVal.obj l) = true) :
    (∀ k, getKey (flattenObject (JVal.obj l)) k = lastAssoc (leafSpecFields l) k)
    ∧ (∀ p ∈ flattenObject (JVal.obj l), isNested p.2 = false) := by
  refine ⟨fun k => ?_, scalar_values_flattenObject _⟩
  have h := getKey_flattenObject (JVal.obj l) k
  simpa [leafSpecOf] using h

/-- Witness for C1 on the record `{a: {x: 1, b: 5}, b: 2}`. -/
theorem flattenObject_union_of_leaves_witness :
    (List.any [("a", JVal.obj [("x", JVal.num 1), ("b", JVal.num 5)]), ("b", JVal.num 2)]
        (fun p => isNested p.2) = true)
    ∧ (∀ k, getKey (flattenObject (JVal.obj
          [("a", JVal.obj [("x", JVal.num 1), ("b", JVal.num 5)]), ("b", JVal.num 2)])) k
        = lastAssoc (leafSpecFields
          [("a", JVal.obj [("x", JVal.num 1), ("b", JVal.num 5)]), ("b", JVal.num 2)]) k) :=
  ⟨rfl, (flattenObject_union_of_leaves
    [("a", JVal.obj [("x", JVal.num 1), ("b", JVal.num 5)]), ("b", JVal.num 2)] rfl rfl).1⟩

theorem flattenFields_all_scalar (l acc : List (String × JVal))
    (hs : ∀ p ∈ l, isNested p.2 = false) (h : (keysOf (acc ++ l)).Nodup) :
    flattenFields l acc = acc ++ l := by
  induction l generalizing acc with
  | nil => simp [flattenFields]
  | cons p rest ih =>
      obtain ⟨k, v⟩ := p
      have hv : isNested v = false := hs (k, v) (List.mem_cons_self _ _)
      have hknotin : k ∉ keysOf acc := by
        intro hk
        have h' : List.Disjoint (List.map Prod.fst acc) (k :: List.map Prod.fst rest) := by
          have := (List.nodup_append.mp (by simpa [keysOf] using h))
          exact this.2.2
        exact h' (by simpa [keysOf] using hk) (List.mem_cons_self _ _)
      have hfalse : hasKey acc k = false := by
        by_contra hh
        simp only [Bool.not_eq_false] at hh
        exact hknotin (mem_keys_of_hasKey acc k hh)
      simp only [flattenFields, hv, Bool.false_eq_true, if_false, setKey, hfalse]
      rw [ih (acc ++ [(k, v)]) (fun q hq => hs q (List.mem_cons_of_mem _ hq)) (by
        simpa [keysOf] using h)]
      simp

/-- C2: for every Record whose fields are all scalar (no nested values),
`flattenObject` is the identity: the input record is returned unchanged. -/
theorem flattenObject_id_on_flat_records (l : List (String × JVal))
    (hs : ∀ p ∈ l, isNested p.2 = false) (hnd : (keysOf l).Nodup) :
    flattenObject (JVal.obj l) = l := by
  simp only [flattenObject]
  simpa using flattenFields_all_scalar l [] hs (by simpa [keysOf] using hnd)

/-- Witness for C2 on the record `{a: 1, b: "x", c: null}`. -/
theorem flattenObject_id_on_flat_records_witness :
    flattenObject (JVal.obj [("a", JVal.num 1), ("b", JVal.str "x"), ("c", JVal.null)])
      = [("a", JVal.num 1), ("b", JVal.str "x"), ("c", JVal.null)] :=
  flattenObject_id_on_flat_records _ (by decide) (by decide)

/-- Counterexample for C10 as stated: the record `{a: [{x: 1}]}` contains a
field whose value is a non-null array, yet the array's element is not merged
at its numeric index "0" — the object element is recursively flattened
instead, and the result has no "0" key at all. -/
theorem flattenObject_array_of_objects_not_index_keyed :
    flattenObject (JVal.obj [("a", JVal.arr [JVal.obj [("x", JVal.num 1)]])])
      = [("x", JVal.num 1)]
    ∧ getKey (flattenObject (JVal.obj [("a", JVal.arr [JVal.obj [("x", JVal.num 1)]])])) "0"
      = none := ⟨rfl, rfl⟩

/-- C10 (amended): for every Record containing a field whose value is a
non-null array of scalar elements, `flattenObject` never copies the array (or
any nested value) as a single field value — every value in the result is
scalar — and each element index "i" is present as a key in the result, bound
to the last depth-first leaf with that key, so element values from
later-iterated fields overwrite earlier ones on index collision.  Elements
that are themselves objects or arrays are recursively flattened instead of
being keyed by their index. -/
theorem flattenObject_array_fields_index_keyed (l : List (String × JVal)) (k : String)
    (es : List JVal) (hmem : (k, JVal.arr es) ∈ l)
    (hes : ∀ e ∈ es, isNested e = false) :
    (∀ p ∈ flattenObject (JVal.obj l), isNested p.2 = false)
    ∧ (∀ i, i < es.length →
        getKey (flattenObject (JVal.obj l)) (toString i)
          = lastAssoc (leafSpecFields l) (toString i)
        ∧ lastAssoc (leafSpecFields l) (toString i) ≠ none) := by
  refine ⟨scalar_values_flattenObject _, fun i hi => ⟨?_, ?_⟩⟩
  · simpa [leafSpecOf] using getKey_flattenObject (JVal.obj l) (toString i)
  · refine lastAssoc_leafSpecFields_ne_none l k (toString i) es hmem ?_
    have := lastAssoc_leafSpecElems_ne_none es 0 i hes hi
    simpa [leafSpecOf] using this

/-- Witness for C10 on the record `{a: [1, 2], b: [3]}`: index "0" collides
and the later field wins. -/
theorem flattenObject_array_fields_index_keyed_witness :
    (∀ p ∈ flattenObject (JVal.obj
        [("a", JVal.arr [JVal.num 1, JVal.num 2]), ("b", JVal.arr [JVal.num 3])]),
      isNested p.2 = false)
    ∧ getKey (flattenObject (JVal.obj
        [("a", JVal.arr [JVal.num 1, JVal.num 2]), ("b", JVal.arr [JVal.num 3])])) "0"
      = some (JVal.num 3) := by
  have h := flattenObject_array_fields_index_keyed
    [("a", JVal.arr [JVal.num 1, JVal.num 2]), ("b", JVal.arr [JVal.num 3])]
    "a" [JVal.num 1, JVal.num 2] (List.mem_cons_self _ _) (by decide)
  refine ⟨h.1, ?_⟩
  rfl

example : flattenObject (JVal.obj [("a", JVal.num 1)]) = [("a", JVal.num 1)] := rfl

example :
    flattenObject (JVal.obj [("a", JVal.obj [("x", JVal.num 1), ("b", JVal.num 5)]), ("b", JVal.num 2)])
      = [("x", JVal.num 1), ("b", JVal.num 2)] := rfl

example :
    flattenObject (JVal.obj [("a", JVal.arr [JVal.num 7, JVal.num 8]), ("b", JVal.arr [JVal.num 9])])
      = [("0", JVal.num 9), ("1", JVal.num 8)] := rfl

/-- JS `String.prototype.lastIndexOf` helper: scan left to right, remembering
the index of the latest occurrence. -/
def lastIndexOfCharAux : List Char → Char → Nat → Int → Int
| [], _, _, best => best
| c :: rest, t, i, best => lastIndexOfCharAux rest t (i + 1) (if c = t then (i : Int) else best)

/-- JS `String.prototype.lastIndexOf` for a single character: the index of
its last occurrence, or -1. -/
def lastIndexOfChar (cs : List Char) (t : Char) : Int :=
  lastIndexOfCharAux cs t 0 (-1)

/-- JS `String.prototype.substr(start)`: a negative start counts back from
the end (clamped at 0), then the substring runs to the end of the string. -/
def jsSubstrFrom (cs : List Char) (start : Int) : List Char :=
  let n : Int := (cs.length : Int)
  let b : Nat := if start < 0 then (max (n + start) 0).toNat else (min start n).toNat
  List.drop b cs

/-- `this._fileExtension = fileName.substr(fileName.lastIndexOf('.'))` from
the DataPreview constructor (line 108): the extension including the dot; for
a dotless name, `lastIndexOf` is -1 and `substr(-1)` yields the last
character. -/
def fileExtension (fileName : String) : String :=
  String.mk (jsSubstrFrom fileName.data (lastIndexOfChar fileName.data '.'))

/-- Whether a character list contains '/'. -/
def hasSlash : List Char → Bool
| [] => false
| c :: rest => if c = '/' then true else hasSlash rest

/-- The segment after the last '/'. -/
def basenameChars : List Char → List Char
| [] => []
| c :: rest => if hasSlash rest then basenameChars rest else if c = '/' then rest else c :: rest

/-- Node `path.basename` (posix paths without trailing separators, which is
what this extension passes): the segment after the last '/'. -/
def jsBasename (p : String) : String :=
  String.mk (basenameChars p.data)

/-- Whether `pat` occurs at the head of the given character list. -/
def leadsWith : List Char → List Char → Bool
| [], _ => true
| _ :: _, [] => false
| a :: as, b :: bs => if a = b then leadsWith as bs else false

/-- Char-level worker for JS `String.prototype.replace(pat, repl)` with a
string pattern: replace the first occurrence only. -/
def replaceFirstChars : List Char → List Char → List Char → List Char
| [], _, _ => []
| c :: rest, pat, repl =>
    if leadsWith pat (c :: rest) then repl ++ List.drop pat.length (c :: rest)
    else c :: replaceFirstChars rest pat repl

/-- JS `String.prototype.replace` with a plain-string pattern: first
occurrence only, unchanged when the pattern does not occur. -/
def jsReplaceFirst (s pat repl : String) : String :=
  String.mk (replaceFirstChars s.data pat.data repl.data)

/-- The decoding strategies of `getFileData`'s extension switch
(lines 350–383), including the parquet branch that only shows a
"coming soon" message. -/
inductive Decoder where
| passthrough
| binaryExcel
| textExcel
| arrow
| avro
| parquetPending
deriving DecidableEq

/-- The extension switch of `getFileData` (lines 350–383): a case-sensitive
match of `this._fileExtension` against fixed lowercase literals; any other
extension falls through to no decoder. -/
def decoderForExtension : String → Option Decoder
| ".csv" | ".tsv" | ".txt" | ".tab" | ".json" => some Decoder.passthrough
| ".xls" | ".xlsb" | ".xlsx" | ".xlsm" | ".slk" | ".ods" | ".prn" => some Decoder.binaryExcel
| ".dif" | ".xml" | ".html" => some Decoder.textExcel
| ".arrow" => some Decoder.arrow
| ".avro" => some Decoder.avro
| ".parquet" => some Decoder.parquetPending
| _ => none

/-- Format detection for a document path: the constructor sets
`_fileName = path.basename(uri.fsPath)` and takes `_fileExtension` from the
last dot (lines 107–108); `getFileData` then switches on that extension. -/
def detectDecoder (fsPath : String) : Option Decoder :=
  decoderForExtension (fileExtension (jsBasename fsPath))

/-- Counterexample for C3 as stated: extension matching is case-sensitive —
a path ending in ".CSV" selects no decoder while ".csv" selects the
passthrough decoder. -/
theorem detectDecoder_case_counterexample :
    detectDecoder "data.CSV" = none
    ∧ detectDecoder "data.csv" = some Decoder.passthrough
    ∧ (none : Option Decoder) ≠ some Decoder.passthrough := by
  refine ⟨by decide, by decide, by decide⟩

/-- C3 (amended): the decoder is determined, deterministically, by the file
extension alone, but the match is case-sensitive against lowercase literals:
each lowercase extension in the fixed set selects its decoder, and an
uppercase variant such as ".CSV" selects none. -/
theorem detectDecoder_by_extension (p q : String)
    (h : fileExtension (jsBasename p) = fileExtension (jsBasename q)) :
    detectDecoder p = detectDecoder q
    ∧ decoderForExtension ".csv" = some Decoder.passthrough
    ∧ decoderForExtension ".tsv" = some Decoder.passthrough
    ∧ decoderForExtension ".txt" = some Decoder.passthrough
    ∧ decoderForExtension ".tab" = some Decoder.passthrough
    ∧ decoderForExtension ".json" = some Decoder.passthrough
    ∧ decoderForExtension ".xls" = some Decoder.binaryExcel
    ∧ decoderForExtension ".xlsb" = some Decoder.binaryExcel
    ∧ decoderForExtension ".xlsx" = some Decoder.binaryExcel
    ∧ decoderForExtension ".xlsm" = some Decoder.binaryExcel
    ∧ decoderForExtension ".slk" = some Decoder.binaryExcel
    ∧ decoderForExtension ".ods" = some Decoder.binaryExcel
    ∧ decoderForExtension ".prn" = some Decoder.binaryExcel
    ∧ decoderForExtension ".dif" = some Decoder.textExcel
    ∧ decoderForExtension ".xml" = some Decoder.textExcel
    ∧ decoderForExtension ".html" = some Decoder.textExcel
    ∧ decoderForExtension ".arrow" = some Decoder.arrow
    ∧ decoderForExtension ".avro" = some Decoder.avro
    ∧ decoderForExtension ".CSV" = none := by
  refine ⟨?_, ?_⟩
  · rw [detectDecoder, detectDecoder, h]
  · decide

/-- Witness for C3 (amended) at two paths sharing the extension ".csv". -/
theorem detectDecoder_by_extension_witness :
    detectDecoder "a.csv" = detectDecoder "b.csv"
    ∧ detectDecoder "a.csv" = some Decoder.passthrough :=
  ⟨(detectDecoder_by_extension "a.csv" "b.csv" (by decide)).1, by decide⟩

/-- The data produced by `getFileData` and consumed by `loadData`: JS `null`
(no data), a raw text string (passthrough formats), or an array of row
objects.  `getFileData` never returns `undefined` — its `data` variable is
initialized to `null` (line 340). -/
inductive FileData where
| nullData
| textData (s : String)
| rowsData (rows : List JVal)

/-- `DataPreview.getFileData` (lines 339–385), with the decoder libraries
abstracted as inputs: `text` stands for the `fs.readFileSync` text of the
file, `excelRows` / `arrowRows` for the rows the spreadsheet / columnar
libraries produce for it.  A missing file shows an error message and returns
`null`; otherwise the extension switch (`decoderForExtension`) picks the
branch; an unrecognized extension falls through leaving `data = null`; the
parquet branch only shows a message; the Avro branch returns its row
accumulator, which is still empty at return time because Avro decoding is
asynchronous (`getAvroData`, line 513). -/
def getFileData (fileExistsB : Bool) (ext : String) (text : String)
    (excelRows arrowRows : List JVal) : FileData :=
  if fileExistsB = false then FileData.nullData
  else
    match decoderForExtension ext with
    | some Decoder.passthrough => FileData.textData text
    | some Decoder.binaryExcel => FileData.rowsData excelRows
    | some Decoder.textExcel => FileData.rowsData excelRows
    | some Decoder.arrow => FileData.rowsData arrowRows
    | some Decoder.avro => FileData.rowsData []
    | some Decoder.parquetPending => FileData.nullData
    | none => FileData.nullData

/-- One message posted to the webview by `loadData` (lines 280–289),
restricted to the fields the verified claims are about. -/
structure WebMsg where
  schema : Option JVal
  tableList : List String
  table : String
  data : FileData

/-- Outcome of a `loadData` call: an escaped exception, a silent early
return, or a posted refresh message. -/
inductive LoadOutcome where
| threw
| skipped
| posted (msg : WebMsg)

/-- `DataPreview.loadData` (lines 273–295): the guard
`data === undefined || data.length <= 0` returns early for `undefined` or
empty data, but evaluating `data.length` on JS `null` throws a TypeError —
and the guard sits before the `try` block, so that exception escapes
`loadData`. -/
def loadData (schema : Option JVal) (tableList : List String) (table : String)
    (d : FileData) : LoadOutcome :=
  match d with
  | FileData.nullData => LoadOutcome.threw
  | FileData.textData s =>
      if s.length ≤ 0 then LoadOutcome.skipped
      else LoadOutcome.posted ⟨schema, tableList, table, d⟩
  | FileData.rowsData rows =>
      if rows.length ≤ 0 then LoadOutcome.skipped
      else LoadOutcome.posted ⟨schema, tableList, table, d⟩

/-- `DataPreview.refresh` (lines 244–268): the try/catch wraps only
`getFileData` (which is total in this model); `loadData(data)` runs after
the catch, so an exception raised in `loadData` escapes `refresh`. -/
def refresh (fileExistsB : Bool) (ext text : String) (excelRows arrowRows : List JVal)
    (schema : Option JVal) (tableList : List String) (table : String) : LoadOutcome :=
  loadData schema tableList table (getFileData fileExistsB ext text excelRows arrowRows)

/-- C4 evaluated at the failing input: for an existing file with the
unrecognized extension ".foo", `getFileData` indeed returns no data
(JS `null`) — but `refresh`'s subsequent `loadData(null)` evaluates
`null.length` and the TypeError escapes the pipeline, contradicting the
claim's "does not crash". -/
theorem refresh_unsupported_extension_throws :
    decoderForExtension ".foo" = none
    ∧ getFileData true ".foo" "" [] [] = FileData.nullData
    ∧ refresh true ".foo" "" [] [] none [] "" = LoadOutcome.threw :=
  ⟨rfl, rfl, rfl⟩

/-- A file store mapping a path to the JSON value whose pretty-printed form
is the file's content (see the module comment): `hasKey` is
`fs.existsSync`, `setKey` is an unconditional file write. -/
abbrev Store := List (String × JVal)

/-- `DataPreview.createJsonFile` (lines 580–595): stringify `jsonData` and
write it to `jsonFilePath` only when no file exists there
(`!fs.existsSync(jsonFilePath)`). -/
def createJsonFile (fsys : Store) (jsonFilePath : String) (jsonData : JVal) : Store :=
  if hasKey fsys jsonFilePath then fsys else setKey fsys jsonFilePath jsonData

/-- The Avro content provider's schema companion write
(`avro.data.provider.ts`, lines 56–72): on the `metadata` event the
stringified schema is written with `fs.writeFile` to
`dataFilePath.replace('.avro', '.avro.schema.json')` — unconditionally,
with no existence check. -/
def avroProviderSchemaWrite (fsys : Store) (dataFilePath : String) (dataSchema : JVal) : Store :=
  setKey fsys (jsReplaceFirst dataFilePath ".avro" ".avro.schema.json") dataSchema

/-- C5 (amended): every companion write that goes through `createJsonFile` —
in particular the `.json` / `.schema.json` Avro companions written by
`getAvroData` — is skipped when a file already exists at the target path,
leaving the store (hence the existing content, byte-for-byte) unchanged.
The AvroContentProvider's `.avro.json` / `.avro.schema.json` writes do not
go through this guard and overwrite (see the counterexample). -/
theorem createJsonFile_skips_existing (fsys : Store) (p : String) (v : JVal)
    (h : hasKey fsys p = true) : createJsonFile fsys p v = fsys := by
  simp [createJsonFile, h]

/-- Witness for C5 (amended): an existing file survives `createJsonFile`. -/
theorem createJsonFile_skips_existing_witness :
    createJsonFile [("out.json", JVal.str "old")] "out.json" (JVal.str "new")
      = [("out.json", JVal.str "old")] :=
  createJsonFile_skips_existing _ _ _ rfl

/-- Counterexample for C5 as stated: the Avro content provider's companion
write is not governed by skip-if-exists — on the `metadata` event it
overwrites an existing `.avro.schema.json` file with new content. -/
theorem avroProviderSchemaWrite_overwrites :
    getKey [("file://d.avro.schema.json", JVal.str "old")] "file://d.avro.schema.json"
      = some (JVal.str "old")
    ∧ getKey (avroProviderSchemaWrite [("file://d.avro.schema.json", JVal.str "old")]
        "file://d.avro" (JVal.str "new")) "file://d.avro.schema.json"
      = some (JVal.str "new")
    ∧ JVal.str "new" ≠ JVal.str "old" := by
  refine ⟨rfl, rfl, fun h => ?_⟩
  injection h with h2
  exact absurd h2 (by decide)

/-- Events of the avsc `BlockDecoder` stream consumed by `getAvroData`.
Modelled from the spec: the decoder library is not part of this repository;
per spec §4.5 the schema (`metadata`) event arrives before any `data` event
and a single `end` event arrives last, which is how well-formed traces are
built below. -/
inductive AvroEvent where
| metadata (t : JVal)
| data (d : JVal)
| endEv

/-- The state read and written by `getAvroData`'s event handlers: the local
`dataSchema` / `dataRows` accumulators, the preview fields `_schema`
(`viewSchema`), `_tableList` and `_dataTable` that `loadData` reads, the
file store, and the messages posted to the webview so far. -/
structure AvroDecodeState where
  dataSchema : JVal
  dataRows : List JVal
  viewSchema : Option JVal
  tableList : List String
  dataTable : String
  fsys : Store
  publishes : List WebMsg

/-- One event-handler step of `DataPreview.getAvroData` (lines 498–514):
`metadata` stores the schema in the local `dataSchema`; `data` appends a row;
`end` writes the `.json` / `.schema.json` companions through
`createJsonFile`, flattens every accumulated row, and calls `loadData`,
which posts at most one message.  Note that `this._schema` (`viewSchema`)
is never written by any handler. -/
def getAvroDataStep (uriFsPath fileExt : String) (st : AvroDecodeState) :
    AvroEvent → AvroDecodeState
| AvroEvent.metadata t => { st with dataSchema := t }
| AvroEvent.data d => { st with dataRows := st.dataRows ++ [d] }
| AvroEvent.endEv =>
    let fs1 := createJsonFile st.fsys (jsReplaceFirst uriFsPath fileExt ".json")
      (JVal.arr st.dataRows)
    let fs2 := createJsonFile fs1 (jsReplaceFirst uriFsPath fileExt ".schema.json")
      st.dataSchema
    let flat := st.dataRows.map (fun r => JVal.obj (flattenObject r))
    match loadData st.viewSchema st.tableList st.dataTable (FileData.rowsData flat) with
    | LoadOutcome.posted m => { st with fsys := fs2, publishes := st.publishes ++ [m] }
    | _ => { st with fsys := fs2 }

/-- A full `getAvroData` decode: fold the event trace through the handlers. -/
def runAvro (uriFsPath fileExt : String) (st : AvroDecodeState) (evs : List AvroEvent) :
    AvroDecodeState :=
  evs.foldl (getAvroDataStep uriFsPath fileExt) st

theorem runAvro_data_events (p e : String) (st : AvroDecodeState) (rows : List JVal) :
    runAvro p e st (rows.map AvroEvent.data) = { st with dataRows := st.dataRows ++ rows } := by
  induction rows generalizing st with
  | nil => simp [runAvro]
  | cons r rest ih =>
      simp only [List.map_cons, runAvro, List.foldl_cons, getAvroDataStep]
      have := ih { st with dataRows := st.dataRows ++ [r] }
      simp only [runAvro] at this
      rw [this]
      simp

/-- Counterexample for C6 as stated, at two concrete decodes.  A zero-row
decode (schema event, then end-of-stream) performs no publish at all,
because `loadData` skips empty row arrays — so there is not exactly one
final publish per decode.  And for a one-row decode, the single message
published carries the preview's pre-existing `_schema` (here `none`), not
the Avro schema observed in the `metadata` event: the final publish does not
include the decode's schema. -/
theorem getAvroData_publish_counterexample :
    (runAvro "d.avro" ".avro" ⟨JVal.obj [], [], none, [], "", [], []⟩
        [AvroEvent.metadata (JVal.obj [("type", JVal.str "record")]),
         AvroEvent.endEv]).publishes = []
    ∧ (runAvro "d.avro" ".avro" ⟨JVal.obj [], [], none, [], "", [], []⟩
        [AvroEvent.metadata (JVal.obj [("type", JVal.str "record")]),
         AvroEvent.data (JVal.obj [("id", JVal.num 1)]),
         AvroEvent.endEv]).publishes.map (fun m => m.schema) = [none]
    ∧ (none : Option JVal) ≠ some (JVal.obj [("type", JVal.str "record")]) := by
  refine ⟨rfl, rfl, by simp⟩

/-- C6 (amended): for every Avro decode whose event trace presents the
schema first and a single end-of-stream event last (the spec's ordering for
the decoder library), started with no accumulated rows and no prior
publishes: if at least one row was decoded, exactly one message is published
and it is the last (indeed only) publish of the decode, carrying every
accumulated record flattened into a flat record; its schema field is the
preview's pre-existing `_schema`, not the Avro schema from the metadata
event (which only reaches the `.schema.json` companion file). -/
theorem getAvroData_single_final_publish (s0 : JVal) (rows : List JVal)
    (st : AvroDecodeState) (p e : String)
    (hrows : rows ≠ []) (hpub : st.publishes = []) (hdr : st.dataRows = []) :
    (runAvro p e st
        (AvroEvent.metadata s0 :: (rows.map AvroEvent.data ++ [AvroEvent.endEv]))).publishes
      = [{ schema := st.viewSchema, tableList := st.tableList, table := st.dataTable,
           data := FileData.rowsData (rows.map (fun r => JVal.obj (flattenObject r))) }] := by
  have h1 : runAvro p e st
      (AvroEvent.metadata s0 :: (rows.map AvroEvent.data ++ [AvroEvent.endEv]))
      = getAvroDataStep p e
          (runAvro p e { st with dataSchema := s0 } (rows.map AvroEvent.data)) AvroEvent.endEv := by
    simp [runAvro, getAvroDataStep, List.foldl_append]
  rw [h1, runAvro_data_events]
  have hne : ¬((rows.map (fun r => JVal.obj (flattenObject r))).length ≤ 0) := by
    simp only [List.length_map, Nat.le_zero, List.length_eq_zero]
    exact hrows
  simp only [hdr, List.nil_append, getAvroDataStep, loadData]
  rw [if_neg hne]
  simp [hpub]

/-- Witness for C6 (amended) on a one-row decode. -/
theorem getAvroData_single_final_publish_witness :
    (runAvro "d.avro" ".avro" ⟨JVal.obj [], [], some (JVal.str "s"), ["t"], "t", [], []⟩
        (AvroEvent.metadata (JVal.obj [("type", JVal.str "record")])
          :: ([JVal.obj [("id", JVal.num 1)]].map AvroEvent.data ++ [AvroEvent.endEv]))).publishes
      = [{ schema := some (JVal.str "s"), tableList := ["t"], table := "t",
           data := FileData.rowsData [JVal.obj [("id", JVal.num 1)]] }] :=
  getAvroData_single_final_publish (JVal.obj [("type", JVal.str "record")])
    [JVal.obj [("id", JVal.num 1)]] ⟨JVal.obj [], [], some (JVal.str "s"), ["t"], "t", [], []⟩
    "d.avro" ".avro" (by simp) rfl rfl

/-- JS `String.prototype.indexOf` scanning worker, carrying the current
position; an empty pattern matches at the current position, including at the
end of the string. -/
def indexOfFromAux : List Char → List Char → Nat → Int
| [], sub, i => if leadsWith sub [] then (i : Int) else -1
| c :: rest, sub, i =>
    if leadsWith sub (c :: rest) then (i : Int) else indexOfFromAux rest sub (i + 1)

/-- JS `String.prototype.indexOf`: the index of the first occurrence of
`sub`, or -1. -/
def jsIndexOf (s sub : String) : Int :=
  indexOfFromAux s.data sub.data 0

/-- The parsed content of a saved view-config file (spec §6):
`dataFileName`, opaque `config`, optional `dataTable`. -/
structure ViewConfigFile where
  dataFileName : String
  config : JVal
  dataTable : Option String

/-- The view state `loadConfig` may change: `this._config` and
`this._dataTable`. -/
structure PreviewViewState where
  config : JVal
  dataTable : String

/-- The accept/reject decision of `DataPreview.loadConfig` (lines 320–329)
after the selected config file is parsed: the code accepts when
`this._uri.fsPath.indexOf(viewConfig.dataFileName) >= 0` — substring
containment in the full path — adopting `config` and `dataTable` (empty
string when absent); otherwise it shows the mismatch error message and
changes nothing.  Returns the new state and whether the load was accepted. -/
def loadConfigApply (uriFsPath : String) (st : PreviewViewState) (vc : ViewConfigFile) :
    PreviewViewState × Bool :=
  if 0 ≤ jsIndexOf uriFsPath vc.dataFileName then
    ({ config := vc.config,
       dataTable := match vc.dataTable with | none => "" | some t => t }, true)
  else (st, false)

/-- Counterexample for C7 as stated: the config file records data file name
"a.csv" while the open document is "/home/data.csv" (file name "data.csv");
the names differ, yet the load is accepted and the view state replaced,
because the code only checks `fsPath.indexOf(dataFileName) >= 0` and "a.csv"
occurs inside "/home/data.csv". -/
theorem loadConfig_mismatch_counterexample :
    jsBasename "/home/data.csv" = "data.csv"
    ∧ ("a.csv" : String) ≠ "data.csv"
    ∧ loadConfigApply "/home/data.csv" ⟨JVal.null, "t0"⟩ ⟨"a.csv", JVal.str "cfg", none⟩
      = (⟨JVal.str "cfg", ""⟩, true) :=
  ⟨by decide, by decide, rfl⟩

theorem leadsWith_self (xs : List Char) : leadsWith xs xs = true := by
  induction xs with
  | nil => rfl
  | cons c rest ih => simp [leadsWith, ih]

theorem basenameChars_suffix (cs : List Char) : ∃ k, basenameChars cs = List.drop k cs := by
  induction cs with
  | nil => exact ⟨0, rfl⟩
  | cons c rest ih =>
      by_cases hs : hasSlash rest
      · obtain ⟨k, hk⟩ := ih
        exact ⟨k + 1, by simpa [basenameChars, hs] using hk⟩
      · by_cases hc : c = Char.ofNat 47
        · exact ⟨1, by simp [basenameChars, hs, hc]⟩
        · exact ⟨0, by simp [basenameChars, hs, hc]⟩

theorem indexOfFromAux_nonneg (s sub : List Char) (i : Nat)
    (h : ∃ k, leadsWith sub (List.drop k s) = true) :
    0 ≤ indexOfFromAux s sub i := by
  induction s generalizing i with
  | nil =>
      obtain ⟨k, hk⟩ := h
      simp only [List.drop_nil] at hk
      simp [indexOfFromAux, hk]
  | cons c rest ih =>
      by_cases hh : leadsWith sub (c :: rest)
      · simp [indexOfFromAux, hh]
      · obtain ⟨k, hk⟩ := h
        cases k with
        | zero =>
            simp only [List.drop_zero] at hk
            exact absurd hk (by simpa using hh)
        | succ n =>
            simp only [List.drop_succ_cons] at hk
            simpa [indexOfFromAux, hh] using ih (i + 1) ⟨n, hk⟩

theorem jsIndexOf_basename_nonneg (p : String) : 0 ≤ jsIndexOf p (jsBasename p) := by
  obtain ⟨k, hk⟩ := basenameChars_suffix p.data
  refine indexOfFromAux_nonneg p.data (jsBasename p).data 0 ⟨k, ?_⟩
  have hdata : (jsBasename p).data = basenameChars p.data := rfl
  rw [hdata, hk]
  exact leadsWith_self _

/-- C7 (amended): the load is rejected — mismatch error, existing view state
unchanged — exactly when `dataFileName` is not a substring of the open
document's full path (`indexOf < 0`); when it is a substring, and in
particular whenever it equals the open document's file name, the config and
optional dataTable are adopted. -/
theorem loadConfig_substring_decision (uriFsPath : String) (st : PreviewViewState)
    (vc : ViewConfigFile) :
    (jsIndexOf uriFsPath vc.dataFileName < 0 → loadConfigApply uriFsPath st vc = (st, false))
    ∧ (0 ≤ jsIndexOf uriFsPath vc.dataFileName →
        loadConfigApply uriFsPath st vc
          = ({ config := vc.config,
               dataTable := match vc.dataTable with | none => "" | some t => t }, true))
    ∧ (vc.dataFileName = jsBasename uriFsPath →
        (loadConfigApply uriFsPath st vc).2 = true) := by
  refine ⟨fun h => ?_, fun h => ?_, fun h => ?_⟩
  · simp only [loadConfigApply]
    rw [if_neg (not_le.mpr h)]
  · simp only [loadConfigApply]
    rw [if_pos h]
  · have hge : 0 ≤ jsIndexOf uriFsPath vc.dataFileName := by
      rw [h]
      exact jsIndexOf_basename_nonneg uriFsPath
    simp only [loadConfigApply]
    rw [if_pos hge]

/-- Witness for C7 (amended): a config whose `dataFileName` equals the open
file's name is accepted. -/
theorem loadConfig_substring_decision_witness :
    (loadConfigApply "/h/a.csv" ⟨JVal.null, ""⟩ ⟨"a.csv", JVal.str "c", none⟩).2 = true :=
  (loadConfig_substring_decision "/h/a.csv" ⟨JVal.null, ""⟩ ⟨"a.csv", JVal.str "c", none⟩).2.2
    (by decide)

/-- An xlsx workbook as the library hands it to `getExcelData`: the sheet
name list in file order and, for each sheet, the row objects
`xlsx.utils.sheet_to_json` produces for it. -/
structure WorkBook where
  SheetNames : List String
  Sheets : List (String × List JVal)

/-- The DataPreview fields `getExcelData` reads and writes, plus the file
store for its `.json` companion write. -/
structure ExcelCtx where
  tableList : List String
  dataTable : String
  uriFsPath : String
  fileExt : String
  fsys : Store

/-- `DataPreview.getExcelData` (lines 420–451): when the workbook has
sheets, save the sheet-name list into `_tableList` when there are at least
two, pick `_dataTable` when one was requested and the first sheet otherwise,
convert that sheet to row objects, and write a `.json` companion (suffixed
with the sheet name when a table was requested and several sheets exist)
through `createJsonFile`.  Looking up an absent sheet name is not modelled
(the library would fault there); the claims only exercise present sheets. -/
def getExcelData (wb : WorkBook) (ctx : ExcelCtx) : List JVal × ExcelCtx :=
  if wb.SheetNames.length > 0 then
    let tableList2 := if wb.SheetNames.length > 1 then wb.SheetNames else ctx.tableList
    let sheetName := if ctx.dataTable.length > 0 then ctx.dataTable else wb.SheetNames.headD ""
    let dataRows := (getKey wb.Sheets sheetName).getD []
    let path0 := jsReplaceFirst ctx.uriFsPath ctx.fileExt ".json"
    let jsonFilePath :=
      if ctx.dataTable.length > 0 && tableList2.length > 1 then
        jsReplaceFirst path0 ".json" ("-" ++ sheetName ++ ".json")
      else path0
    (dataRows, { ctx with
        tableList := tableList2
        fsys := createJsonFile ctx.fsys jsonFilePath (JVal.arr dataRows) })
  else ([], ctx)

/-- C8: for every multi-sheet workbook with no explicit table requested and
a fresh table list, `getExcelData` returns the first sheet's rows (file
order) and saves the full sheet-name list; moreover, under those premises
the saved sheet-name list is non-empty exactly when more than one sheet
exists. -/
theorem getExcelData_first_sheet_tableList (wb : WorkBook) (ctx : ExcelCtx)
    (hfresh : ctx.tableList = []) (hnotab : ctx.dataTable = "") :
    (1 < wb.SheetNames.length →
      (getExcelData wb ctx).1 = (getKey wb.Sheets (wb.SheetNames.headD "")).getD []
      ∧ (getExcelData wb ctx).2.tableList = wb.SheetNames)
    ∧ ((getExcelData wb ctx).2.tableList ≠ [] ↔ 1 < wb.SheetNames.length) := by
  by_cases h1 : 1 < wb.SheetNames.length
  · have h0 : 0 < wb.SheetNames.length := by omega
    have hne : wb.SheetNames ≠ [] := by
      intro hnil
      rw [hnil] at h0
      simp at h0
    refine ⟨fun _ => ⟨?_, ?_⟩, ?_⟩
    · simp [getExcelData, h0, h1, hnotab]
    · simp [getExcelData, h0, h1, hnotab]
    · simp [getExcelData, h0, h1, hnotab, hne]
  · refine ⟨fun hc => absurd hc h1, ?_⟩
    by_cases h0 : 0 < wb.SheetNames.length
    · simp [getExcelData, h0, h1, hfresh]
    · simp [getExcelData, h0, h1, hfresh]

/-- Witness for C8 on a two-sheet workbook. -/
theorem getExcelData_first_sheet_tableList_witness :
    (getExcelData ⟨["A", "B"], [("A", [JVal.obj [("x", JVal.num 1)]]), ("B", [])]⟩
        ⟨[], "", "/f.xlsx", ".xlsx", []⟩).1 = [JVal.obj [("x", JVal.num 1)]]
    ∧ (getExcelData ⟨["A", "B"], [("A", [JVal.obj [("x", JVal.num 1)]]), ("B", [])]⟩
        ⟨[], "", "/f.xlsx", ".xlsx", []⟩).2.tableList = ["A", "B"] := by
  have h := (getExcelData_first_sheet_tableList
    ⟨["A", "B"], [("A", [JVal.obj [("x", JVal.num 1)]]), ("B", [])]⟩
    ⟨[], "", "/f.xlsx", ".xlsx", []⟩ rfl rfl).1 (by decide)
  refine ⟨?_, h.2⟩
  rw [h.1]
  rfl

/-- `uri.path.replace(RegExp('\\.json$'), '')` from the Avro content
provider (line 42): the backslash is consumed by the JS string literal, so
the regex is `/.json$/` whose dot matches any character — the last five
characters are stripped whenever the path ends in any character followed by
"json". -/
def jsStripJsonExt (s : String) : String :=
  let cs := s.data
  if 5 ≤ cs.length ∧ List.drop (cs.length - 4) cs = ['j', 's', 'o', 'n'] then
    String.mk (List.take (cs.length - 5) cs)
  else s

/-- The Avro content provider's per-instance state
(`avro.data.provider.ts`): the `jsonFileDataMap` cache, mapping a derived
path to the current `JsonData.data` content, and the file store its
companion writes go to. -/
structure ProviderState where
  jsonFileDataMap : List (String × JVal)
  fsys : Store

/-- One decoded Avro file as the decoder library delivers it over the event
stream (modelled from the spec: the library is not in this repository;
metadata arrives first, then the rows, then end-of-stream). -/
structure AvroFile where
  schema : JVal
  rows : List JVal

/-- `AvroContentProvider.provideTextDocumentContent` for the
`avro.data.json` view (`avro.data.provider.ts`, lines 38–102), summarized
over a whole decode of `file`.  When the derived `jsonFilePath` is cached
the promise resolves with the cached content — but there is no `return`
after that `resolve`, so the call still registers a fresh `JsonData` in the
map, starts a new file decoder (counted by the `Nat` component), and lets
the handlers run: `metadata` rewrites the `.avro.schema.json` companion
unconditionally and resolves (a no-op on a cache hit), each row and the
`end` handler update the entry and rewrite the `.avro.json` companion.  On
a cache miss the first `resolve` to run is the `metadata` handler's, so the
schema JSON is what the promise delivers. -/
def provideTextDocumentContent (st : ProviderState) (uriPath uriStr : String)
    (file : AvroFile) : JVal × ProviderState × Nat :=
  let jsonFilePath := jsStripJsonExt uriPath
  let cached := getKey st.jsonFileDataMap jsonFilePath
  let fs1 := setKey st.fsys (jsReplaceFirst uriStr ".avro" ".avro.schema.json") file.schema
  let fs2 := setKey fs1 (jsReplaceFirst uriStr ".avro" ".avro.json") (JVal.arr file.rows)
  let map1 := setKey st.jsonFileDataMap jsonFilePath (JVal.arr file.rows)
  let resolved := match cached with
    | some c => c
    | none => file.schema
  (resolved, ⟨map1, fs2⟩, 1)

/-- Counterexample for C9 as stated: with the derived path "/d.avro" already
in the cache, a repeated request resolves with the cached content — but the
decode is recomputed anyway: one new file decoder is started and the
companion files are rewritten (here the schema companion changes from "old"
to the fresh schema). -/
theorem provideTextDocumentContent_recomputes :
    (provideTextDocumentContent
        ⟨[("/d.avro", JVal.str "cached")], [("file:///d.avro.schema.json", JVal.str "old")]⟩
        "/d.avro.json" "file:///d.avro"
        ⟨JVal.str "schema", [JVal.obj [("id", JVal.num 1)]]⟩).1 = JVal.str "cached"
    ∧ (provideTextDocumentContent
        ⟨[("/d.avro", JVal.str "cached")], [("file:///d.avro.schema.json", JVal.str "old")]⟩
        "/d.avro.json" "file:///d.avro"
        ⟨JVal.str "schema", [JVal.obj [("id", JVal.num 1)]]⟩).2.2 = 1
    ∧ getKey (provideTextDocumentContent
        ⟨[("/d.avro", JVal.str "cached")], [("file:///d.avro.schema.json", JVal.str "old")]⟩
        "/d.avro.json" "file:///d.avro"
        ⟨JVal.str "schema", [JVal.obj [("id", JVal.num 1)]]⟩).2.1.fsys
        "file:///d.avro.schema.json" = some (JVal.str "schema") :=
  ⟨rfl, rfl, rfl⟩

/-- C9 (amended): for every request whose derived output path is in the
cache, the resolved content is the cached content, but the decode is
recomputed anyway — the call starts one new file decoder (and its handlers
rewrite the companion files), because the cache-hit `resolve` is not
followed by a `return`. -/
theorem provideTextDocumentContent_cache_hit (st : ProviderState) (uriPath uriStr : String)
    (file : AvroFile) (c : JVal)
    (h : getKey st.jsonFileDataMap (jsStripJsonExt uriPath) = some c) :
    (provideTextDocumentContent st uriPath uriStr file).1 = c
    ∧ (provideTextDocumentContent st uriPath uriStr file).2.2 = 1 := by
  simp [provideTextDocumentContent, h]

/-- Witness for C9 (amended) on a cached path. -/
theorem provideTextDocumentContent_cache_hit_witness :
    (provideTextDocumentContent ⟨[("/d.avro", JVal.str "cached")], []⟩
        "/d.avro.json" "file:///d.avro" ⟨JVal.str "s", []⟩).1 = JVal.str "cached" :=
  (provideTextDocumentContent_cache_hit ⟨[("/d.avro", JVal.str "cached")], []⟩
    "/d.avro.json" "file:///d.avro" ⟨JVal.str "s", []⟩ (JVal.str "cached") rfl).1
